import Mathlib

/-!
Verification of the libp2p_msg repository: a shallow embedding in Lean 4 of
the per-connection handler (src/src/handler.rs) and of the chat example driver
(src/examples/chat.rs): the peer connection registry, the chunked file-send
pipeline, the rendezvous-discovery dial step and the stdin command dispatch.

Byte buffers are modelled as `List Nat`, peer ids and endpoints as `Nat`
(both are opaque identifiers compared only for equality in the code under
verification).
-/

set_option autoImplicit false

namespace Libp2pMsg

/-! ## Connection Handler (src/src/handler.rs)

`Handler` holds `queued_events : VecDeque<ConnectionHandlerEvent<...>>`.
We model the deque as a `List`, the front of the deque being the head of
the list, so `push_back` appends at the end and `pop_back` removes the
last element. -/

/-- The two `ConnectionHandlerEvent` variants the handler ever enqueues:
`Custom(MsgContent)` from `inject_fully_negotiated_inbound`, and
`OutboundSubstreamRequest` carrying the `MsgContent` of the
`SubstreamProtocol` from `inject_event`. -/
inductive HandlerEvent where
  | custom (data : List Nat)
  | outboundSubstreamRequest (msg : List Nat)
  deriving DecidableEq, Repr

/-- The handler state: just the `queued_events` deque (head of the list is
the front of the `VecDeque`). -/
structure Handler where
  queued_events : List HandlerEvent
  deriving DecidableEq, Repr

/-- `Handler::new()` starts with an empty deque (`Default::default()`). -/
def Handler.new : Handler := ⟨[]⟩

/-- `Handler::inject_event(msg)`: `queued_events.push_back(OutboundSubstreamRequest { protocol: SubstreamProtocol::new(msg, ()) })`. -/
def Handler.injectEvent (h : Handler) (msg : List Nat) : Handler :=
  ⟨h.queued_events ++ [HandlerEvent.outboundSubstreamRequest msg]⟩

/-- `Handler::inject_fully_negotiated_inbound(output)`: `queued_events.push_back(Custom(MsgContent { data: output }))`. -/
def Handler.injectFullyNegotiatedInbound (h : Handler) (output : List Nat) : Handler :=
  ⟨h.queued_events ++ [HandlerEvent.custom output]⟩

/-- `Handler::inject_fully_negotiated_outbound` has an empty body. -/
def Handler.injectFullyNegotiatedOutbound (h : Handler) : Handler := h

/-- The `ConnectionHandlerUpgrErr<std::io::Error>` argument of
`inject_dial_upgrade_error`, mirroring its three variants. -/
inductive UpgradeError where
  | timeout
  | timer
  | upgrade (ioError : Nat)
  deriving DecidableEq, Repr

/-- `Handler::inject_dial_upgrade_error(_info, _error)` has an empty body:
both arguments are ignored and the state is untouched. -/
def Handler.injectDialUpgradeError (h : Handler) (_info : Unit)
    (_error : UpgradeError) : Handler := h

/-- `Handler::poll`: `if let Some(msg) = queued_events.pop_back() { return Poll::Ready(msg) } Poll::Pending`.
Returns the event (`some` for `Poll::Ready`, `none` for `Poll::Pending`)
together with the updated handler state. -/
def Handler.poll (h : Handler) : Option HandlerEvent × Handler :=
  match h.queued_events.getLast? with
  | some e => (some e, ⟨h.queued_events.dropLast⟩)
  | none => (none, h)

/-- The calls through which the substrate or the behaviour enqueue an event
on the handler: `inject_event` (a send request) and
`inject_fully_negotiated_inbound` (an inbound completion). -/
inductive HandlerOp where
  | submit (msg : List Nat)
  | inboundComplete (bytes : List Nat)
  deriving DecidableEq, Repr

/-- Apply one enqueueing call to the handler. -/
def Handler.applyOp (h : Handler) : HandlerOp → Handler
  | HandlerOp.submit msg => h.injectEvent msg
  | HandlerOp.inboundComplete bytes => h.injectFullyNegotiatedInbound bytes

/-- Apply a sequence of enqueueing calls in order. -/
def Handler.applyOps (h : Handler) (ops : List HandlerOp) : Handler :=
  ops.foldl Handler.applyOp h

/-- The event each enqueueing call pushes onto the deque. -/
def HandlerOp.event : HandlerOp → HandlerEvent
  | HandlerOp.submit msg => HandlerEvent.outboundSubstreamRequest msg
  | HandlerOp.inboundComplete bytes => HandlerEvent.custom bytes

/-! ## Peer Connection Registry (src/examples/chat.rs, main loop)

`peers : BTreeMap<PeerId, HashSet<ConnectedPoint>>` is modelled as an
association list `List (Nat × Finset Nat)` with pairwise distinct keys
(the map's entries); a `HashSet<ConnectedPoint>` is a `Finset Nat`. -/

/-- The registry type: `BTreeMap<PeerId, HashSet<ConnectedPoint>>`. -/
def Registry : Type := List (Nat × Finset Nat)

/-- `BTreeMap::get`: the value stored under key `p`, if any. -/
def lookupReg : Registry → Nat → Option (Finset Nat)
  | [], _ => none
  | (q, s) :: rest, p => if q = p then some s else lookupReg rest p

/-- The `SwarmEvent::ConnectionEstablished` handling:
`peers.entry(peer_id).or_default().insert(endpoint)` — update the existing
entry's set in place, or create a fresh entry holding just this endpoint. -/
def connEstablished : Registry → Nat → Nat → Registry
  | [], p, e => [(p, {e})]
  | (q, s) :: rest, p, e =>
      if q = p then (q, insert e s) :: rest else (q, s) :: connEstablished rest p e

/-- The `SwarmEvent::ConnectionClosed` handling:
`if let Some(eps) = peers.get_mut(&peer_id) { eps.remove(&endpoint); if eps.is_empty() { peers.remove(&peer_id); } }`. -/
def connClosed : Registry → Nat → Nat → Registry
  | [], _, _ => []
  | (q, s) :: rest, p, e =>
      if q = p then
        (if s.erase e = ∅ then rest else (q, s.erase e) :: rest)
      else (q, s) :: connClosed rest p e

/-- `handle_list_peers` prints `peers.keys()` — the peers appearing in the
registry. -/
def listPeers (reg : Registry) : List Nat := reg.map Prod.fst

/-- A connection lifecycle event delivered to the main loop. -/
inductive ConnEvent where
  | established (p e : Nat)
  | closed (p e : Nat)
  deriving DecidableEq, Repr

/-- Apply one lifecycle event to the registry. -/
def applyConnEvent (reg : Registry) : ConnEvent → Registry
  | ConnEvent.established p e => connEstablished reg p e
  | ConnEvent.closed p e => connClosed reg p e

/-- The registry obtained from the empty one by a sequence of events. -/
def applyConnEvents (evts : List ConnEvent) : Registry :=
  evts.foldl applyConnEvent []

/-- The reference semantics of one event on the per-peer set of currently
open endpoints: established inserts, closed removes. -/
def stepOpen (f : Nat → Finset Nat) : ConnEvent → Nat → Finset Nat
  | ConnEvent.established p e, q => if q = p then insert e (f p) else f q
  | ConnEvent.closed p e, q => if q = p then (f p).erase e else f q

/-- The set of endpoints of `p` currently open after a sequence of events. -/
def openEndpoints (evts : List ConnEvent) : Nat → Finset Nat :=
  evts.foldl stepOpen (fun _ => ∅)

/-- The registry/reference-semantics simulation invariant: keys are pairwise
distinct, every stored set is the reference open-endpoint set and is
nonempty, and an absent peer has no open endpoint. -/
def RegInv (reg : Registry) (f : Nat → Finset Nat) : Prop :=
  (listPeers reg).Nodup ∧
    ∀ p, (∀ s, lookupReg reg p = some s → s = f p ∧ s.Nonempty) ∧
      (lookupReg reg p = none → f p = ∅)

/-! ## File Transfer Pipeline, send path (src/examples/chat.rs, handle_send_file)

`handle_send_file` loops: allocate `buf = vec![0; BUFFER_SIZE]`, call
`file.read(&mut buf)` getting `n`, break if `n == 0`, else `buf.truncate(n)`
and send `(peer_id, buf)` on the channel (each such send becomes exactly one
`sendmsg.send` submission to the Connection Handler in the main loop).

The file is a `List Nat` of its remaining bytes; a read is modelled by an
oracle `read : List Nat → Nat` giving the byte count returned for the
current remaining contents (the kernel may return fewer than requested);
the chunk handed downstream is the `truncate`d prefix of that length. The
Rust `loop` has no fuel: it terminates because every non-final read
consumes at least one byte, so `file.length + 1` iterations always reach
the `n == 0` break; the fuel argument only mirrors that bound. -/

/-- `const BUFFER_SIZE: usize = 1024 * 1024`. -/
def BUFFER_SIZE : Nat := 1024 * 1024

/-- The read/truncate/send loop of `handle_send_file`, returning the chunks
sent on the channel in production order. -/
def sendChunksAux (read : List Nat → Nat) : Nat → List Nat → List (List Nat)
  | 0, _ => []
  | fuel + 1, rem =>
    let n := read rem
    if n = 0 then [] else rem.take n :: sendChunksAux read fuel (rem.drop n)

/-- All chunks `handle_send_file` submits for a given file. -/
def sendChunks (read : List Nat → Nat) (file : List Nat) : List (List Nat) :=
  sendChunksAux read (file.length + 1) file

/-- What `File::read` guarantees: at end of file it returns 0, otherwise a
positive count of at most `min BUFFER_SIZE remaining` bytes (the buffer
handed to it has length `BUFFER_SIZE`). -/
def ValidRead (read : List Nat → Nat) : Prop :=
  read [] = 0 ∧
    ∀ rem : List Nat, rem ≠ [] → 0 < read rem ∧ read rem ≤ min BUFFER_SIZE rem.length

/-- A read kernel that always returns the full requested count until end of
file, for a buffer bound of `B`. -/
def fullReadB (B : Nat) (rem : List Nat) : Nat := min B rem.length

/-- The full-count read kernel at the program's `BUFFER_SIZE`. -/
def fullRead : List Nat → Nat := fullReadB BUFFER_SIZE

/-! ## Discovery dial step (src/examples/chat.rs, Rendezvous Discovered)

On a `Discovered` event the code iterates over every registration and every
address of its record, and for each one calls
`swarm.dial(relay_address/p2p-circuit/p2p(peer)).unwrap()` — the dialed
peer is the registration's peer id; there is no comparison against the
local peer id anywhere in the loop. -/

/-- A rendezvous registration: the registered peer and its record's
addresses (addresses are opaque here; the dial target does not use them). -/
structure Registration where
  peer : Nat
  addresses : List Nat
  deriving DecidableEq, Repr

/-- The peers for which the Discovered handler initiates a relayed dial, in
order: one dial per (registration, address) pair. -/
def dialedPeers (regs : List Registration) : List Nat :=
  (regs.map (fun r => r.addresses.map (fun _ => r.peer))).flatten

/-! ## Command Interface (src/examples/chat.rs, Command::try_from and the
stdin dispatch arm of the main loop)

Lines are `List Char`. `line.splitn(3, ' ')` is modelled faithfully: at
most 3 pieces, the last piece keeping any further separators.
`PeerId::from_str` belongs to the substrate, so it is an oracle
`parsePeerId : List Char → Option Nat`; `PathBuf::from_str` is infallible
in Rust, so the path token is taken as is. -/

/-- Core of `str::splitn`: `k` is the number of splits still allowed. -/
def splitnGo (sep : Char) : Nat → List Char → List Char → List (List Char)
  | _, acc, [] => [acc.reverse]
  | 0, acc, c :: cs => splitnGo sep 0 (c :: acc) cs
  | k + 1, acc, c :: cs =>
      if c = sep then acc.reverse :: splitnGo sep k [] cs
      else splitnGo sep (k + 1) (c :: acc) cs

/-- `s.splitn(n, sep)` as a list: at most `n` pieces. -/
def splitn (n : Nat) (sep : Char) (s : List Char) : List (List Char) :=
  splitnGo sep (n - 1) [] s

/-- The `Command` enum of the chat example. -/
inductive Command where
  | listPeers
  | sendFile (peerId : Nat) (filePath : List Char)
  | unknown
  deriving DecidableEq, Repr

/-- `Command::try_from(&str)`: first token `ls` gives `ListPeers`; first
token `file` requires two further tokens and a parseable peer id, else
`Err`; any other first token gives `Ok(Unknown)`. The error payload is
collapsed to `Unit` (the code only ever formats it). -/
def tryFromLine (parsePeerId : List Char → Option Nat) (line : List Char) :
    Except Unit Command :=
  match splitn 3 ' ' line with
  | token :: rest =>
      if token = ['l', 's'] then Except.ok Command.listPeers
      else if token = ['f', 'i', 'l', 'e'] then
        match rest with
        | pid :: path :: _ =>
            match parsePeerId pid with
            | some p => Except.ok (Command.sendFile p path)
            | none => Except.error ()
        | _ => Except.error ()
      else Except.ok Command.unknown
  | [] => Except.ok Command.unknown

/-- The observable outcome of the stdin dispatch arm for one input line:
`listed` prints the peers, `sessionStarted` spawns a send session,
`errorMessage` prints the wrong-command message on stderr, `ignored` is
the silent catch-all `_ => {}` arm. -/
inductive DispatchResult where
  | listed
  | sessionStarted (peerId : Nat) (filePath : List Char)
  | errorMessage
  | ignored
  deriving DecidableEq, Repr

/-- The dispatch `match Command::try_from(line.as_str())` of the main
loop, arm for arm. -/
def dispatchLine (parsePeerId : List Char → Option Nat) (line : List Char) :
    DispatchResult :=
  match tryFromLine parsePeerId line with
  | Except.ok Command.listPeers => DispatchResult.listed
  | Except.ok (Command.sendFile p path) => DispatchResult.sessionStarted p path
  | Except.error _ => DispatchResult.errorMessage
  | Except.ok Command.unknown => DispatchResult.ignored

theorem Handler.applyOp_queue (h : Handler) (op : HandlerOp) :
    (h.applyOp op).queued_events = h.queued_events ++ [op.event] := by
  cases op <;> rfl

theorem Handler.applyOps_append (h : Handler) (ops₁ ops₂ : List HandlerOp) :
    h.applyOps (ops₁ ++ ops₂) = (h.applyOps ops₁).applyOps ops₂ := by
  simp [Handler.applyOps, List.foldl_append]

theorem Handler.poll_applyOp (h : Handler) (op : HandlerOp) :
    (h.applyOp op).poll = (some op.event, h) := by
  cases h with
  | mk q =>
    cases op <;>
      simp [Handler.applyOp, Handler.injectEvent, Handler.injectFullyNegotiatedInbound,
        Handler.poll, HandlerOp.event, List.getLast?_append, List.dropLast_append_of_ne_nil]

theorem mem_listPeers_iff_lookupReg (reg : Registry) (p : Nat) :
    p ∈ listPeers reg ↔ lookupReg reg p ≠ none := by
  induction reg with
  | nil => simp [listPeers, lookupReg]
  | cons hd tl ih =>
    obtain ⟨k, s⟩ := hd
    by_cases hk : k = p
    · subst hk
      simp [listPeers, lookupReg]
    · have hpk : ¬ p = k := fun h => hk h.symm
      simp only [listPeers, List.map_cons, List.mem_cons, lookupReg, if_neg hk]
      constructor
      · intro h
        rcases h with h | h
        · exact absurd h hpk
        · exact ih.mp h
      · intro h
        exact Or.inr (ih.mpr h)

theorem lookupReg_connEstablished_self (reg : Registry) (p e : Nat) :
    lookupReg (connEstablished reg p e) p =
      some (insert e ((lookupReg reg p).getD ∅)) := by
  induction reg with
  | nil => simp [connEstablished, lookupReg]
  | cons hd tl ih =>
    obtain ⟨k, s⟩ := hd
    by_cases hk : k = p
    · simp [connEstablished, if_pos hk, lookupReg]
    · simp [connEstablished, if_neg hk, lookupReg, ih]

theorem lookupReg_connEstablished_ne (reg : Registry) (p e q : Nat) (hq : q ≠ p) :
    lookupReg (connEstablished reg p e) q = lookupReg reg q := by
  induction reg with
  | nil =>
    have : ¬ p = q := fun h => hq h.symm
    simp [connEstablished, lookupReg, this]
  | cons hd tl ih =>
    obtain ⟨k, s⟩ := hd
    by_cases hk : k = p
    · subst hk
      have : ¬ k = q := fun h => hq (h.symm.trans rfl)
      simp [connEstablished, lookupReg, this]
    · have hE : connEstablished ((k, s) :: tl) p e = (k, s) :: connEstablished tl p e := by
        simp [connEstablished, hk]
      rw [hE]
      by_cases hkq : k = q
      · simp [lookupReg, if_pos hkq]
      · simp [lookupReg, if_neg hkq, ih]

theorem mem_keys_connEstablished (reg : Registry) (p e q : Nat) :
    q ∈ listPeers (connEstablished reg p e) ↔ q ∈ listPeers reg ∨ q = p := by
  induction reg with
  | nil => simp [connEstablished, listPeers]
  | cons hd tl ih =>
    obtain ⟨k, s⟩ := hd
    by_cases hk : k = p
    · subst hk
      have hE : connEstablished ((k, s) :: tl) k e = (k, insert e s) :: tl := by
        simp [connEstablished]
      rw [hE]
      simp only [listPeers, List.map_cons, List.mem_cons]
      tauto
    · have hE : connEstablished ((k, s) :: tl) p e = (k, s) :: connEstablished tl p e := by
        simp [connEstablished, hk]
      rw [hE]
      simp only [listPeers, List.map_cons, List.mem_cons] at ih ⊢
      tauto

theorem nodup_keys_connEstablished (reg : Registry) (p e : Nat)
    (hnd : (listPeers reg).Nodup) : (listPeers (connEstablished reg p e)).Nodup := by
  induction reg with
  | nil => simp [connEstablished, listPeers]
  | cons hd tl ih =>
    obtain ⟨k, s⟩ := hd
    simp only [listPeers, List.map_cons, List.nodup_cons] at hnd
    obtain ⟨hknotin, hndtl⟩ := hnd
    by_cases hk : k = p
    · subst hk
      simpa [connEstablished, listPeers, List.nodup_cons] using And.intro hknotin hndtl
    · simp only [connEstablished, if_neg hk, listPeers, List.map_cons, List.nodup_cons]
      refine ⟨fun hmem => ?_, by simpa [listPeers] using ih (by simpa [listPeers] using hndtl)⟩
      rcases (mem_keys_connEstablished tl p e k).mp (by simpa [listPeers] using hmem) with h | h
      · exact hknotin (by simpa [listPeers] using h)
      · exact hk h

theorem connClosed_of_not_mem (reg : Registry) (p e : Nat)
    (h : lookupReg reg p = none) : connClosed reg p e = reg := by
  induction reg with
  | nil => rfl
  | cons hd tl ih =>
    obtain ⟨k, s⟩ := hd
    by_cases hk : k = p
    · simp [lookupReg, if_pos hk] at h
    · simp only [lookupReg, if_neg hk] at h
      simp [connClosed, if_neg hk, ih h]

theorem mem_keys_connClosed (reg : Registry) (p e q : Nat)
    (h : q ∈ listPeers (connClosed reg p e)) : q ∈ listPeers reg := by
  induction reg with
  | nil => simp [connClosed, listPeers] at h
  | cons hd tl ih =>
    obtain ⟨k, s⟩ := hd
    by_cases hk : k = p
    · by_cases hs : s.erase e = ∅
      · have : q ∈ listPeers tl := by simpa [connClosed, if_pos hk, hs, listPeers] using h
        simp [listPeers, List.mem_cons]
        exact Or.inr (by simpa [listPeers] using this)
      · have : q = k ∨ q ∈ listPeers tl := by
          simpa [connClosed, if_pos hk, hs, listPeers] using h
        simpa [listPeers] using this
    · have : q = k ∨ q ∈ listPeers (connClosed tl p e) := by
        simpa [connClosed, if_neg hk, listPeers] using h
      rcases this with h2 | h2
      · simp [listPeers, h2]
      · simp [listPeers]
        exact Or.inr (by simpa [listPeers] using ih h2)

theorem nodup_keys_connClosed (reg : Registry) (p e : Nat)
    (hnd : (listPeers reg).Nodup) : (listPeers (connClosed reg p e)).Nodup := by
  induction reg with
  | nil => simp [connClosed, listPeers]
  | cons hd tl ih =>
    obtain ⟨k, s⟩ := hd
    simp only [listPeers, List.map_cons, List.nodup_cons] at hnd
    obtain ⟨hknotin, hndtl⟩ := hnd
    by_cases hk : k = p
    · by_cases hs : s.erase e = ∅
      · simpa [connClosed, if_pos hk, hs, listPeers] using hndtl
      · simpa [connClosed, if_pos hk, hs, listPeers, List.nodup_cons] using
          And.intro hknotin hndtl
    · simp only [connClosed, if_neg hk, listPeers, List.map_cons, List.nodup_cons]
      refine ⟨fun hmem => ?_, by simpa [listPeers] using ih (by simpa [listPeers] using hndtl)⟩
      exact hknotin (by simpa [listPeers] using
        mem_keys_connClosed tl p e k (by simpa [listPeers] using hmem))

theorem lookupReg_connClosed_self (reg : Registry) (p e : Nat)
    (hnd : (listPeers reg).Nodup) :
    lookupReg (connClosed reg p e) p =
      (match lookupReg reg p with
       | none => none
       | some s => if s.erase e = ∅ then none else some (s.erase e)) := by
  induction reg with
  | nil => simp [connClosed, lookupReg]
  | cons hd tl ih =>
    obtain ⟨k, s⟩ := hd
    simp only [listPeers, List.map_cons, List.nodup_cons] at hnd
    obtain ⟨hknotin, hndtl⟩ := hnd
    by_cases hk : k = p
    · subst hk
      by_cases hs : s.erase e = ∅
      · have hnone : lookupReg tl k = none := by
          rcases h2 : lookupReg tl k with _ | s2
          · rfl
          · exact absurd ((mem_listPeers_iff_lookupReg tl k).mpr (by simp [h2]))
              (by simpa [listPeers] using hknotin)
        simp [connClosed, lookupReg, hs, hnone]
      · simp [connClosed, lookupReg, hs]
    · simp only [connClosed, if_neg hk, lookupReg, if_neg hk]
      exact ih (by simpa [listPeers] using hndtl)

theorem lookupReg_connClosed_ne (reg : Registry) (p e q : Nat) (hq : q ≠ p) :
    lookupReg (connClosed reg p e) q = lookupReg reg q := by
  induction reg with
  | nil => simp [connClosed, lookupReg]
  | cons hd tl ih =>
    obtain ⟨k, s⟩ := hd
    by_cases hk : k = p
    · subst hk
      have hkq : ¬ k = q := fun h => hq (h.symm.trans rfl)
      by_cases hs : s.erase e = ∅ <;>
        simp [connClosed, lookupReg, hs, hkq]
    · have hE : connClosed ((k, s) :: tl) p e = (k, s) :: connClosed tl p e := by
        simp [connClosed, hk]
      rw [hE]
      by_cases hkq : k = q
      · simp [lookupReg, if_pos hkq]
      · simp [lookupReg, if_neg hkq, ih]

theorem regInv_step (reg : Registry) (f : Nat → Finset Nat) (ev : ConnEvent)
    (h : RegInv reg f) : RegInv (applyConnEvent reg ev) (stepOpen f ev) := by
  obtain ⟨hnd, hinv⟩ := h
  cases ev with
  | established p e =>
    simp only [applyConnEvent]
    refine ⟨nodup_keys_connEstablished reg p e hnd, fun q => ?_⟩
    by_cases hq : q = p
    · subst hq
      constructor
      · intro s hs
        rw [lookupReg_connEstablished_self] at hs
        rcases h2 : lookupReg reg q with _ | s2
        · rw [h2] at hs
          have hfq : f q = ∅ := (hinv q).2 h2
          have hs2 : insert e ∅ = s := by simpa using Option.some.inj hs
          refine ⟨?_, ?_⟩
          · rw [← hs2]
            simp [stepOpen, hfq]
          · rw [← hs2]
            exact Finset.insert_nonempty _ _
        · rw [h2] at hs
          have hfq := ((hinv q).1 s2 h2).1
          have hs2 : insert e s2 = s := by simpa using Option.some.inj hs
          refine ⟨?_, ?_⟩
          · rw [← hs2, hfq]
            simp [stepOpen]
          · rw [← hs2]
            exact Finset.insert_nonempty _ _
      · intro hs
        rw [lookupReg_connEstablished_self] at hs
        exact absurd hs (by simp)
    · have hlk : lookupReg (connEstablished reg p e) q = lookupReg reg q :=
        lookupReg_connEstablished_ne reg p e q hq
      constructor
      · intro s hs
        rw [hlk] at hs
        rcases (hinv q).1 s hs with ⟨h1, h2⟩
        exact ⟨by simp [stepOpen, hq, h1], h2⟩
      · intro hs
        rw [hlk] at hs
        simpa [stepOpen, hq] using (hinv q).2 hs
  | closed p e =>
    simp only [applyConnEvent]
    refine ⟨nodup_keys_connClosed reg p e hnd, fun q => ?_⟩
    by_cases hq : q = p
    · subst hq
      have hlk := lookupReg_connClosed_self reg q e hnd
      constructor
      · intro s hs
        rw [hlk] at hs
        rcases h2 : lookupReg reg q with _ | s2
        · rw [h2] at hs
          simp at hs
        · rw [h2] at hs
          rcases ((hinv q).1 s2 h2) with ⟨hsf, _⟩
          by_cases hserase : s2.erase e = ∅
          · simp [hserase] at hs
          · simp only [hserase, if_neg hserase] at hs
            rcases Option.some.inj hs with rfl
            exact ⟨by simp [stepOpen, hsf], Finset.nonempty_iff_ne_empty.mpr hserase⟩
      · intro hs
        rw [hlk] at hs
        rcases h2 : lookupReg reg q with _ | s2
        · have hfq : f q = ∅ := (hinv q).2 h2
          simp [stepOpen, hfq]
        · rw [h2] at hs
          rcases ((hinv q).1 s2 h2) with ⟨hsf, _⟩
          by_cases hserase : s2.erase e = ∅
          · simp [stepOpen, ← hsf, hserase]
          · simp [hserase] at hs
    · have hlk : lookupReg (connClosed reg p e) q = lookupReg reg q :=
        lookupReg_connClosed_ne reg p e q hq
      constructor
      · intro s hs
        rw [hlk] at hs
        rcases (hinv q).1 s hs with ⟨h1, h2⟩
        exact ⟨by simp [stepOpen, hq, h1], h2⟩
      · intro hs
        rw [hlk] at hs
        simpa [stepOpen, hq] using (hinv q).2 hs

theorem regInv_foldl (evts : List ConnEvent) (reg : Registry) (f : Nat → Finset Nat)
    (h : RegInv reg f) :
    RegInv (evts.foldl applyConnEvent reg) (evts.foldl stepOpen f) := by
  induction evts generalizing reg f with
  | nil => exact h
  | cons ev rest ih => exact ih _ _ (regInv_step reg f ev h)

theorem regInv_empty : RegInv [] (fun _ => ∅) := by
  refine ⟨by simp [listPeers], fun p => ⟨fun s hs => ?_, fun _ => rfl⟩⟩
  simp [lookupReg] at hs

theorem regInv_applyConnEvents (evts : List ConnEvent) :
    RegInv (applyConnEvents evts) (openEndpoints evts) :=
  regInv_foldl evts [] (fun _ => ∅) regInv_empty

theorem connClosed_eq_of_not_mem_endpoint (reg : Registry) (p e : Nat)
    (h : ∀ s, lookupReg reg p = some s → e ∉ s ∧ s.Nonempty) :
    connClosed reg p e = reg := by
  induction reg with
  | nil => rfl
  | cons hd tl ih =>
    obtain ⟨k, s⟩ := hd
    by_cases hk : k = p
    · rcases h s (by simp [lookupReg, if_pos hk]) with ⟨hnot, hne⟩
      have herase : s.erase e = s := Finset.erase_eq_of_not_mem hnot
      have hne2 : ¬ s.erase e = ∅ := by
        rw [herase]
        exact Finset.nonempty_iff_ne_empty.mp hne
      have hE : connClosed ((k, s) :: tl) p e = (k, s.erase e) :: tl := by
        simp [connClosed, if_pos hk, hne2]
      rw [hE, herase]
    · have htl : ∀ s2, lookupReg tl p = some s2 → e ∉ s2 ∧ s2.Nonempty := by
        intro s2 hs2
        exact h s2 (by simpa [lookupReg, if_neg hk] using hs2)
      simp [connClosed, if_neg hk, ih htl]

/-- Claim C1: starting from `Handler::new()`, after any sequence of
`inject_event` / `inject_fully_negotiated_inbound` calls followed by one more
such call, the next `poll` returns `Poll::Ready` with exactly the event of
that most recent call, and leaves the handler in the state it had before
that call — events are pushed at the back of `queued_events` and popped from
the same end (last-in-first-out). -/
theorem handler_poll_lifo (ops : List HandlerOp) (op : HandlerOp) :
    (Handler.applyOps Handler.new (ops ++ [op])).poll =
      (some op.event, Handler.applyOps Handler.new ops) := by
  rw [Handler.applyOps_append]
  exact Handler.poll_applyOp _ op

/-- Claim C2: starting from the empty registry, after any sequence of
connection-established / connection-closed events, a peer appears in
`handle_list_peers`' listing if and only if it currently has at least one
open endpoint (so removing a peer's last endpoint removes its entry). -/
theorem registry_list_iff_open (evts : List ConnEvent) (p : Nat) :
    p ∈ listPeers (applyConnEvents evts) ↔ (openEndpoints evts p).Nonempty := by
  obtain ⟨hnd, hinv⟩ := regInv_applyConnEvents evts
  rw [mem_listPeers_iff_lookupReg]
  constructor
  · intro h
    rcases h2 : lookupReg (applyConnEvents evts) p with _ | s
    · exact absurd h2 h
    · rcases (hinv p).1 s h2 with ⟨rfl, hne⟩
      exact hne
  · intro h h2
    rw [(hinv p).2 h2] at h
    exact absurd h (by simp)

/-- Claim C9: `Handler::inject_dial_upgrade_error` swallows the error —
the handler state, and in particular its `queued_events`, is left
completely unchanged, so no event is enqueued or emitted and no retry
state exists. -/
theorem handler_dial_upgrade_error_noop (h : Handler) (err : UpgradeError) :
    h.injectDialUpgradeError () err = h ∧
      (h.injectDialUpgradeError () err).queued_events = h.queued_events :=
  ⟨rfl, rfl⟩

/-- Claim C10: a connection-closed event for a peer with no registry entry,
or for an endpoint not recorded in the peer's entry, leaves the registry
reached by any event sequence completely unchanged (and does not fail). -/
theorem connClosed_frame (evts : List ConnEvent) (p e : Nat)
    (h : ∀ s, lookupReg (applyConnEvents evts) p = some s → e ∉ s) :
    connClosed (applyConnEvents evts) p e = applyConnEvents evts := by
  obtain ⟨hnd, hinv⟩ := regInv_applyConnEvents evts
  refine connClosed_eq_of_not_mem_endpoint _ p e (fun s hs => ⟨h s hs, ?_⟩)
  exact ((hinv p).1 s hs).2

/-- Witness for C10 at concrete inputs: after establishing endpoint 5 for
peer 1, closing an endpoint of the absent peer 2, or closing the unrecorded
endpoint 7 of peer 1, leaves the registry unchanged. -/
theorem connClosed_frame_witness :
    connClosed (applyConnEvents [ConnEvent.established 1 5]) 2 5
        = applyConnEvents [ConnEvent.established 1 5] ∧
      connClosed (applyConnEvents [ConnEvent.established 1 5]) 1 7
        = applyConnEvents [ConnEvent.established 1 5] := by
  constructor
  · refine connClosed_frame [ConnEvent.established 1 5] 2 5 ?_
    intro s hs
    simp [applyConnEvents, applyConnEvent, connEstablished, lookupReg] at hs
  · refine connClosed_frame [ConnEvent.established 1 5] 1 7 ?_
    intro s hs
    simp only [applyConnEvents, List.foldl_cons, List.foldl_nil, applyConnEvent,
      connEstablished, lookupReg, if_pos rfl] at hs
    rcases Option.some.inj hs.symm with rfl
    decide

theorem sendChunksAux_chunk_bounds (read : List Nat → Nat) (h : ValidRead read) :
    ∀ (fuel : Nat) (rem c : List Nat), c ∈ sendChunksAux read fuel rem →
      0 < c.length ∧ c.length ≤ BUFFER_SIZE := by
  intro fuel
  induction fuel with
  | zero =>
    intro rem c hc
    simp [sendChunksAux] at hc
  | succ f ih =>
    intro rem c hc
    by_cases hn : read rem = 0
    · simp [sendChunksAux, hn] at hc
    · have hrem : rem ≠ [] := fun hr => hn (hr ▸ h.1)
      obtain ⟨hpos, hle⟩ := h.2 rem hrem
      have hlen : 0 < rem.length := List.length_pos.mpr hrem
      simp only [sendChunksAux, if_neg hn] at hc
      rcases List.mem_cons.mp hc with rfl | hc2
      · rw [List.length_take]
        omega
      · exact ih _ _ hc2

theorem sendChunksAux_flatten (read : List Nat → Nat) (h : ValidRead read) :
    ∀ (fuel : Nat) (rem : List Nat), rem.length < fuel →
      (sendChunksAux read fuel rem).flatten = rem := by
  intro fuel
  induction fuel with
  | zero =>
    intro rem hlt
    exact absurd hlt (Nat.not_lt_zero _)
  | succ f ih =>
    intro rem hlt
    by_cases hn : read rem = 0
    · have hrem : rem = [] := by
        by_contra hne
        exact absurd hn (Nat.pos_iff_ne_zero.mp (h.2 rem hne).1)
      subst hrem
      simp [sendChunksAux, hn]
    · have hrem : rem ≠ [] := fun hr => hn (hr ▸ h.1)
      obtain ⟨hpos, hle⟩ := h.2 rem hrem
      have hlen : 0 < rem.length := List.length_pos.mpr hrem
      simp only [sendChunksAux, if_neg hn, List.flatten_cons]
      rw [ih (rem.drop (read rem)) (by rw [List.length_drop]; omega)]
      exact List.take_append_drop _ rem

theorem sendChunksAux_exact_multiple (B : Nat) (hB : 0 < B) :
    ∀ (k fuel : Nat) (file : List Nat), file.length = k * B → file.length < fuel →
      (sendChunksAux (fullReadB B) fuel file).length = k ∧
        ∀ c ∈ sendChunksAux (fullReadB B) fuel file, c.length = B := by
  intro k
  induction k with
  | zero =>
    intro fuel file hlen hlt
    have hfile : file = [] := List.length_eq_zero.mp (by simpa using hlen)
    subst hfile
    obtain ⟨f, rfl⟩ : ∃ f, fuel = f + 1 := ⟨fuel - 1, by omega⟩
    simp [sendChunksAux, fullReadB]
  | succ k ih =>
    intro fuel file hlen hlt
    obtain ⟨f, rfl⟩ : ∃ f, fuel = f + 1 := ⟨fuel - 1, by omega⟩
    have hmul : (k + 1) * B = k * B + B := Nat.succ_mul k B
    have hlenpos : 0 < file.length := by omega
    have hBle : B ≤ file.length := by omega
    have hn : fullReadB B file = B := by
      simp only [fullReadB]
      omega
    have hnne : ¬ fullReadB B file = 0 := by omega
    have hdrop : (file.drop (fullReadB B file)).length = k * B := by
      rw [List.length_drop, hn]
      omega
    have hfuel : (file.drop (fullReadB B file)).length < f := by
      rw [hdrop]
      omega
    obtain ⟨ihlen, ihmem⟩ := ih f (file.drop (fullReadB B file)) hdrop hfuel
    simp only [sendChunksAux, if_neg hnne]
    refine ⟨by simp [ihlen], fun c hc => ?_⟩
    rcases List.mem_cons.mp hc with rfl | hc2
    · rw [List.length_take, hn]
      omega
    · exact ihmem c hc2

theorem validRead_fullRead : ValidRead fullRead := by
  constructor
  · simp [fullRead, fullReadB]
  · intro rem hrem
    have hlen : 0 < rem.length := List.length_pos.mpr hrem
    have hB : 0 < BUFFER_SIZE := by norm_num [BUFFER_SIZE]
    constructor
    · simp only [fullRead, fullReadB]
      omega
    · simp [fullRead, fullReadB]

/-- Claim C3: for a zero-byte file, `handle_send_file`'s first read returns
zero bytes, the loop exits before any channel send, so zero chunks are
produced and zero submissions reach the Connection Handler (each chunk sent
on the channel is exactly one `sendmsg.send` submission); moreover for no
file is an empty terminal chunk ever submitted. -/
theorem sendFile_zero_byte (read : List Nat → Nat) (h : ValidRead read) :
    read [] = 0 ∧ sendChunks read [] = [] ∧
      ∀ (file : List Nat) (c : List Nat), c ∈ sendChunks read file → c ≠ [] := by
  refine ⟨h.1, by simp [sendChunks, sendChunksAux, h.1], fun file c hc => ?_⟩
  have := sendChunksAux_chunk_bounds read h _ file c hc
  exact List.length_pos.mp this.1

/-- Witness for C3: the full-count read kernel is a valid read kernel, and
on the empty file the pipeline produces no chunk. -/
theorem sendFile_zero_byte_witness :
    ValidRead fullRead ∧ sendChunks fullRead [] = [] :=
  ⟨validRead_fullRead, (sendFile_zero_byte fullRead validRead_fullRead).2.1⟩

/-- Claim C4: when each read returns the full requested count until end of
file, a file whose size is a positive exact multiple `k * BUFFER_SIZE` of
the chunk bound produces exactly `k` chunks, the last of which has length
exactly `BUFFER_SIZE`, and no empty trailing chunk is submitted. -/
theorem sendFile_exact_multiple (file : List Nat) (k : Nat)
    (hlen : file.length = k * BUFFER_SIZE) (hk : 0 < k) :
    (sendChunks fullRead file).length = k ∧
      (∃ c, (sendChunks fullRead file).getLast? = some c ∧ c.length = BUFFER_SIZE) ∧
      ∀ c ∈ sendChunks fullRead file, c ≠ [] := by
  have hB : 0 < BUFFER_SIZE := by norm_num [BUFFER_SIZE]
  obtain ⟨hlen2, hmem⟩ := sendChunksAux_exact_multiple BUFFER_SIZE hB k (file.length + 1)
    file hlen (Nat.lt_succ_self _)
  have hlen3 : (sendChunks fullRead file).length = k := hlen2
  have hne : sendChunks fullRead file ≠ [] := by
    intro hnil
    rw [hnil] at hlen3
    simp at hlen3
    omega
  refine ⟨hlen3, ⟨(sendChunks fullRead file).getLast hne, ?_, ?_⟩, fun c hc => ?_⟩
  · exact List.getLast?_eq_getLast _ hne
  · exact hmem _ (List.getLast_mem hne)
  · have := hmem c hc
    intro hnil
    rw [hnil] at this
    simp at this
    omega

/-- Witness for C4 at a concrete input: a file of exactly `BUFFER_SIZE`
bytes (so `k = 1`) satisfies both hypotheses. -/
theorem sendFile_exact_multiple_witness :
    (List.replicate BUFFER_SIZE 0).length = 1 * BUFFER_SIZE ∧
      (sendChunks fullRead (List.replicate BUFFER_SIZE 0)).length = 1 :=
  ⟨by simp, (sendFile_exact_multiple (List.replicate BUFFER_SIZE 0) 1 (by simp)
    (by norm_num)).1⟩

/-- Claim C5: under a valid read kernel, every chunk handed downstream is
the read buffer truncated to exactly the byte count the read returned (the
first chunk of any nonempty remainder is `take (read rem) rem`, of length
exactly `read rem`), chunks are never empty and never exceed
`BUFFER_SIZE`, and the concatenation of all submitted chunks in production
order is exactly the file's bytes. -/
theorem sendFile_truncation_concat (read : List Nat → Nat) (h : ValidRead read)
    (file : List Nat) :
    (sendChunks read file).flatten = file ∧
      (∀ c ∈ sendChunks read file, c ≠ [] ∧ c.length ≤ BUFFER_SIZE) ∧
      (file ≠ [] →
        (sendChunks read file).head? = some (file.take (read file)) ∧
          (file.take (read file)).length = read file) := by
  refine ⟨sendChunksAux_flatten read h _ file (Nat.lt_succ_self _), fun c hc => ?_,
    fun hne => ?_⟩
  · obtain ⟨h1, h2⟩ := sendChunksAux_chunk_bounds read h _ file c hc
    exact ⟨List.length_pos.mp h1, h2⟩
  · obtain ⟨hpos, hle⟩ := h.2 file hne
    have hlen : 0 < file.length := List.length_pos.mpr hne
    have hn : ¬ read file = 0 := by omega
    constructor
    · simp [sendChunks, sendChunksAux, hn]
    · rw [List.length_take]
      omega

/-- Witness for C5 at a concrete input: with the full-count read kernel on
the three-byte file `[1, 2, 3]`, the concatenation of the produced chunks
is the file itself. -/
theorem sendFile_truncation_concat_witness :
    ValidRead fullRead ∧ (sendChunks fullRead [1, 2, 3]).flatten = [1, 2, 3] :=
  ⟨validRead_fullRead,
    (sendFile_truncation_concat fullRead validRead_fullRead [1, 2, 3]).1⟩

/-- Counterexample to C6 as stated: with local peer id 7, a Discovered
event whose registrations contain peer 7 itself (with one address) makes
the handler initiate a relayed dial to 7 — a discovered peer equal to the
local peer IS dialed, because the dial loop contains no comparison with
the local peer id. -/
theorem discovered_self_dialed_counterexample :
    (7 : Nat) ∈ dialedPeers [⟨7, [0]⟩] := by decide

/-- Claim C6 as amended: during the discovery step, for every discovered
registration with at least one address, a relayed dial to the
registration's peer is initiated — including when that peer equals the
local peer (no self check is performed). -/
theorem discovered_all_dialed (regs : List Registration) (r : Registration)
    (hr : r ∈ regs) (ha : r.addresses ≠ []) : r.peer ∈ dialedPeers regs := by
  rcases List.exists_mem_of_ne_nil r.addresses ha with ⟨a, hamem⟩
  refine List.mem_flatten.mpr ⟨r.addresses.map (fun _ => r.peer), List.mem_map_of_mem _ hr, ?_⟩
  exact List.mem_map.mpr ⟨a, hamem, rfl⟩

/-- Witness for the amended C6 at a concrete input: a single registration
for peer 3 with one address leads to a dial to peer 3. -/
theorem discovered_all_dialed_witness :
    (⟨3, [0]⟩ : Registration) ∈ [(⟨3, [0]⟩ : Registration)] ∧
      ((⟨3, [0]⟩ : Registration).addresses ≠ []) ∧
      (3 : Nat) ∈ dialedPeers [⟨3, [0]⟩] :=
  ⟨by decide, by decide,
    discovered_all_dialed [⟨3, [0]⟩] ⟨3, [0]⟩ (by decide) (by decide)⟩

/-- Counterexample to C7 as stated: the line `foo` has an unrecognized
first token; its dispatch outcome is the silent catch-all `ignored`,
not the `errorMessage` outcome that writes to the error stream — so no
usage message is written, contrary to the claim. -/
theorem unknown_command_no_usage_counterexample :
    dispatchLine (fun _ => none) ['f', 'o', 'o'] = DispatchResult.ignored ∧
      dispatchLine (fun _ => none) ['f', 'o', 'o'] ≠ DispatchResult.errorMessage :=
  ⟨by decide, by decide⟩

/-- Claim C7 as amended: for every input line whose first token is neither
`ls` nor `file`, the line is silently ignored — no session starts, no state
changes, and nothing (in particular no usage message) is written to the
error stream; the usage message is only written for malformed `file`
commands. -/
theorem unknown_command_ignored (parsePeerId : List Char → Option Nat)
    (line tok : List Char) (rest : List (List Char))
    (hsplit : splitn 3 ' ' line = tok :: rest)
    (hls : tok ≠ ['l', 's']) (hfile : tok ≠ ['f', 'i', 'l', 'e']) :
    dispatchLine parsePeerId line = DispatchResult.ignored := by
  simp [dispatchLine, tryFromLine, hsplit, hls, hfile]

/-- Witness for the amended C7 at a concrete input: the line `foo`. -/
theorem unknown_command_ignored_witness :
    splitn 3 ' ' ['f', 'o', 'o'] = [['f', 'o', 'o']] ∧
      dispatchLine (fun _ => none) ['f', 'o', 'o'] = DispatchResult.ignored :=
  ⟨by decide, unknown_command_ignored (fun _ => none) ['f', 'o', 'o'] ['f', 'o', 'o'] []
    (by decide) (by decide) (by decide)⟩

/-- Claim C8: for every `file` command whose peer-id or path token is
missing, or whose peer id fails to parse, `Command::try_from` returns an
error; the dispatch arm then writes the message to the error stream and
starts no session (and this arm neither breaks out of nor returns from the
main loop). -/
theorem malformed_file_command (parsePeerId : List Char → Option Nat)
    (line : List Char) (rest : List (List Char))
    (hsplit : splitn 3 ' ' line = ['f', 'i', 'l', 'e'] :: rest)
    (hbad : match rest with
            | pid :: _ :: _ => parsePeerId pid = none
            | _ => True) :
    tryFromLine parsePeerId line = Except.error () ∧
      dispatchLine parsePeerId line = DispatchResult.errorMessage ∧
      ∀ p path, dispatchLine parsePeerId line ≠ DispatchResult.sessionStarted p path := by
  have herr : tryFromLine parsePeerId line = Except.error () := by
    match hr : rest with
    | [] => simp [tryFromLine, hsplit]
    | [pid] => simp [tryFromLine, hsplit]
    | pid :: path :: more =>
      have hbad2 : parsePeerId pid = none := hbad
      simp [tryFromLine, hsplit, hbad2]
  refine ⟨herr, ?_, ?_⟩
  · simp [dispatchLine, herr]
  · intro p path
    simp [dispatchLine, herr]

/-- Witness for C8 at the spec's own scenario: the line
`file not-a-peer-id /tmp/x` with a peer-id parse that rejects the token. -/
theorem malformed_file_command_witness :
    splitn 3 ' ' ("file not-a-peer-id /tmp/x".toList) =
        ['f', 'i', 'l', 'e'] :: ["not-a-peer-id".toList, "/tmp/x".toList] ∧
      dispatchLine (fun _ => none) ("file not-a-peer-id /tmp/x".toList) =
        DispatchResult.errorMessage :=
  ⟨by decide, (malformed_file_command (fun _ => none) ("file not-a-peer-id /tmp/x".toList)
    ["not-a-peer-id".toList, "/tmp/x".toList] (by decide) (by decide)).2.1⟩

end Libp2pMsg
